import Mathlib

/-!
Verification development for `split_dol.py` (univrs/metadol,
`docs/ontology/retrospective/split_dol.py`).

The script splits a multi-declaration DOL file into individual declarations.
We embed it shallowly over `List Char` (Python `str` is modelled as a list of
characters; `\w` is modelled as ASCII alphanumeric or underscore, `\s` as the
six ASCII whitespace characters — all inputs of interest are ASCII).
Regular-expression operations of the source are translated into explicit
character-level scanners with the exact leftmost/greedy/lazy semantics the
source patterns have.  Recursions that are not structural use an explicit
fuel argument (always called with enough fuel, as proven where needed), so
every definition evaluates by kernel reduction.

File writing, directory creation and the CLI driver of the script are out of
scope (the spec's `Sink`/`Source` collaborators); `split_dol_file` here models
the parsing/extraction core: comment stripping, scanning, body normalisation
and exegesis sanitisation, returning the list of extracted declarations.
-/

/-- Python `\s` (ASCII): space, tab, newline, carriage return, vertical tab, form feed. -/
def isWS (c : Char) : Bool :=
  c = ' ' || c = '\t' || c = '\n' || c = '\r' || c = '\x0b' || c = '\x0c'

/-- Python `\w` (ASCII): letters, digits, underscore. -/
def isWord (c : Char) : Bool :=
  c.isAlphanum || c = '_'

/-- Character class `[\w.]` (qualified-subject characters). -/
def isSubj (c : Char) : Bool :=
  isWord c || c = '.'

/-- Character class `[\w.@\s>]` of the declaration-name group. -/
def isNameChar (c : Char) : Bool :=
  isWord c || c = '.' || c = '@' || c = '>' || isWS c

/-- Python `str.lstrip()`. -/
def lstrip (s : List Char) : List Char :=
  s.dropWhile isWS

/-- Python `str.rstrip()`. -/
def rstrip (s : List Char) : List Char :=
  (s.reverse.dropWhile isWS).reverse

/-- Python `str.strip()`. -/
def strip (s : List Char) : List Char :=
  rstrip (lstrip s)

/-- Python `str.split('\n')`. -/
def splitNL : List Char → List (List Char)
  | [] => [[]]
  | c :: r =>
    if c = '\n' then [] :: splitNL r
    else
      match splitNL r with
      | h :: t => (c :: h) :: t
      | [] => [[c]]

/-- Python `'\n'.join(...)`. -/
def joinNL : List (List Char) → List Char
  | [] => []
  | [l] => l
  | l :: ls => l ++ '\n' :: joinNL ls

/-- Python slice `content[a:b]`. -/
def pySlice (content : List Char) (a b : Nat) : List Char :=
  (content.take b).drop a

/-! ## Brace matcher (`extract_balanced_braces`, source lines 8-25) -/

/-- Loop body of `extract_balanced_braces`: `for i in range(start_pos, len(content))`
maintaining `depth`; returns the index at which depth returns to zero (the
`break`), or `none` if the loop runs off the end of the text. -/
def braceLoop : List Char → Int → Nat → Option Nat
  | [], _, _ => none
  | c :: r, depth, i =>
    let depth2 : Int := if c = '{' then depth + 1 else if c = '}' then depth - 1 else depth
    if c = '}' ∧ depth2 = 0 then some i else braceLoop r depth2 (i + 1)

/-- Source lines 8-25.  `none` models the `ValueError` raised when the character
at `start_pos` is not `'{'` (or the `IndexError` when `start_pos` is out of
range).  When the scan runs off the end of the text without depth returning to
zero, the source leaves `end_pos` at its initialisation `start_pos` and returns
normally — the unterminated-block defect is reproduced faithfully here. -/
def extract_balanced_braces (content : List Char) (start_pos : Nat) :
    Option (List Char × Nat) :=
  match content.get? start_pos with
  | some '{' =>
    let end_pos := (braceLoop (content.drop start_pos) 0 start_pos).getD start_pos
    some (pySlice content (start_pos + 1) end_pos, end_pos)
  | _ => none

/-! ## Body normalizer (`fix_body_syntax`, source lines 27-93)

Each `re` operation of the source is given as an explicit scanner.  The
patterns involved are deterministic once Python's leftmost / greedy / lazy
preferences are unfolded; the only genuine backtracking (the `\s+(?!clause)`
interaction in the `require` rewrite and the trailing cases of the constraint
reordering) is spelled out where it occurs. -/

/-- Match attempt of `\bderive\s+from\b` at the head of `s` (the `\b` before
`derive` is the caller's context).  Returns the number of characters consumed.
`\s+` is greedy and cannot backtrack into `from` (no whitespace char starts
`from`), so the match is: literal `derive`, the maximal whitespace run
(nonempty), literal `from`, then a word boundary. -/
def matchDF (s : List Char) : Option Nat :=
  if "derive".data.isPrefixOf s then
    let t := s.drop 6
    let w := t.takeWhile isWS
    if w = [] then none
    else
      let u := t.drop w.length
      if "from".data.isPrefixOf u then
        match (u.drop 4).head? with
        | none => some (6 + w.length + 4)
        | some c => if isWord c then none else some (6 + w.length + 4)
      else none
  else none

theorem matchDF_pos {s : List Char} {k : Nat} (h : matchDF s = some k) : 0 < k := by
  unfold matchDF at h
  split at h
  · dsimp only at h
    split at h
    · exact absurd h (by simp)
    · split at h
      · split at h <;> simp_all <;> omega
      · exact absurd h (by simp)
  · exact absurd h (by simp)

/-- Fuelled worker for `re.sub(r'\bderive\s+from\b', 'derives from', s)`:
scan left to right, tracking whether the previous character is a word
character (for `\b`), replacing each non-overlapping match. -/
def subDFAux : Nat → Bool → List Char → List Char
  | 0, _, s => s
  | fuel + 1, p, s =>
    match s with
    | [] => []
    | c :: r =>
      match (if p then none else matchDF (c :: r)) with
      | some k => "derives from".data ++ subDFAux fuel true ((c :: r).drop k)
      | none => c :: subDFAux fuel (isWord c) r

/-- Source line 42: `re.sub(r'\bderive\s+from\b', 'derives from', stripped)`.
At the start of the string there is a word boundary, hence context `false`. -/
def subDF (s : List Char) : List Char :=
  subDFAux (s.length + 1) false s

/-- Match attempt of `\brequire\s+(?!clause)` at the head of `s`.  `\s+` is
greedy; when the text after the full whitespace run begins with `clause` the
engine backtracks one whitespace character (the lookahead then sees a
whitespace character, which cannot begin `clause`), which succeeds only when
the run has at least two characters. -/
def matchReq (s : List Char) : Option Nat :=
  if "require".data.isPrefixOf s then
    let t := s.drop 7
    let w := t.takeWhile isWS
    if w = [] then none
    else
      let u := t.drop w.length
      if "clause".data.isPrefixOf u then
        if 2 ≤ w.length then some (7 + (w.length - 1)) else none
      else some (7 + w.length)
  else none

theorem matchReq_pos {s : List Char} {k : Nat} (h : matchReq s = some k) : 0 < k := by
  unfold matchReq at h
  split at h
  · dsimp only at h
    split at h
    · exact absurd h (by simp)
    · split at h
      · split at h
        · simp_all; omega
        · exact absurd h (by simp)
      · simp_all; omega
  · exact absurd h (by simp)

/-- Fuelled worker for `re.sub(r'\brequire\s+(?!clause)', 'requires ', s)`.
Every match ends with a whitespace character, so scanning resumes with a
non-word previous character (context `false`). -/
def subReqAux : Nat → Bool → List Char → List Char
  | 0, _, s => s
  | fuel + 1, p, s =>
    match s with
    | [] => []
    | c :: r =>
      match (if p then none else matchReq (c :: r)) with
      | some k => "requires ".data ++ subReqAux fuel false ((c :: r).drop k)
      | none => c :: subReqAux fuel (isWord c) r

/-- Source line 44: `re.sub(r'\brequire\s+(?!clause)', 'requires ', stripped)`. -/
def subReq (s : List Char) : List Char :=
  subReqAux (s.length + 1) false s

/-- Python `subject.split('.')[-1]`: the suffix after the last dot (the whole
string when there is no dot). -/
def lastSeg (s : List Char) : List Char :=
  (s.reverse.takeWhile (fun c => c ≠ '.')).reverse

/-- The verb alternation `(has|is|derives|requires|matches|never|emits)` of
source line 48, tried in order (the alternatives have pairwise distinct first
letters, so order is immaterial); the match must be followed by a word
boundary.  Returns the matched verb. -/
def verbAt (u : List Char) : Option (List Char) :=
  (["has", "is", "derives", "requires", "matches", "never", "emits"].map
      String.data).find?
    (fun v => v.isPrefixOf u &&
      match (u.drop v.length).head? with
      | none => true
      | some c => !isWord c)

/-- Source lines 48-54: anchored match `^([\w.]+)\s+(has|…|emits)\b`; when the
subject contains a dot it is replaced by its last dot-separated segment and the
rest of the line (`stripped[len(subject):]`) is kept verbatim.  `[\w.]+` is
greedy and cannot backtrack (a shorter subject would put `\s+` on a subject
character), so the subject is the maximal leading `[\w.]` run. -/
def dequal (s : List Char) : List Char :=
  let subject := s.takeWhile isSubj
  if subject = [] then s
  else
    let t := s.drop subject.length
    let w := t.takeWhile isWS
    if w = [] then s
    else
      match verbAt (t.drop w.length) with
      | none => s
      | some _ =>
        if '.' ∈ subject then lastSeg subject ++ t else s

/-- Source line 59: `re.sub(r'^[\w.]+\s+uses\s+', 'uses ', stripped)` (trait
rule).  Anchored; the leading `[\w.]+` run is maximal and cannot backtrack. -/
def traitUses (s : List Char) : List Char :=
  let subject := s.takeWhile isSubj
  if subject = [] then s
  else
    let t := s.drop subject.length
    let w := t.takeWhile isWS
    if w = [] then s
    else
      let u := t.drop w.length
      if "uses".data.isPrefixOf u then
        let w2 := (u.drop 4).takeWhile isWS
        if w2 = [] then s
        else "uses ".data ++ (u.drop (4 + w2.length))
      else s

/-- Source lines 62-63: `if stripped.startswith('emits '): 'action ' + stripped`. -/
def traitEmits (s : List Char) : List Char :=
  if "emits ".data.isPrefixOf s then "action ".data ++ s else s

/-- Source lines 66-67: `if re.match(r'^is\s+\w', stripped): 'behavior ' + stripped`. -/
def traitIs (s : List Char) : List Char :=
  if "is".data.isPrefixOf s then
    let t := s.drop 2
    let w := t.takeWhile isWS
    if w = [] then s
    else
      match (t.drop w.length).head? with
      | some c => if isWord c then "behavior ".data ++ s else s
      | none => s
  else s

/-- Source lines 71-73 (constraint rule): `re.match(r'^matches\s+(\w+)\s+(.+)$', s)`
rebuilt as `f"{g1} matches {g2}"`.  `(\w+)` is the maximal word run (it cannot
backtrack: `\s+` would land on a word character); the second `\s+` is greedy
but backtracks one character when `(.+)$` would otherwise be empty. -/
def constraintMatches (s : List Char) : List Char :=
  if "matches".data.isPrefixOf s then
    let t := s.drop 7
    let w := t.takeWhile isWS
    if w = [] then s
    else
      let u := t.drop w.length
      let g1 := u.takeWhile isWord
      if g1 = [] then s
      else
        let v := u.drop g1.length
        let w2 := v.takeWhile isWS
        if w2 = [] then s
        else
          let rest := v.drop w2.length
          if rest = [] then
            if 2 ≤ w2.length then
              g1 ++ " matches ".data ++ w2.drop (w2.length - 1)
            else s
          else g1 ++ " matches ".data ++ rest
  else s

/-- Source lines 76-77: `if stripped.startswith('never '): 'invariant ' + stripped`. -/
def constraintNever (s : List Char) : List Char :=
  if "never ".data.isPrefixOf s then "invariant ".data ++ s else s

/-- Source line 81: `re.sub(r'^system\s+requires\s+', 'requires ', s)`. -/
def sysReq (s : List Char) : List Char :=
  if "system".data.isPrefixOf s then
    let t := s.drop 6
    let w := t.takeWhile isWS
    if w = [] then s
    else
      let u := t.drop w.length
      if "requires".data.isPrefixOf u then
        let w2 := (u.drop 8).takeWhile isWS
        if w2 = [] then s
        else "requires ".data ++ (u.drop (8 + w2.length))
      else s
  else s

/-- Source line 83: `re.sub(r'^all\s+(\w+)\s+is\s+', r'\1 is ', s)`. -/
def sysAll (s : List Char) : List Char :=
  if "all".data.isPrefixOf s then
    let t := s.drop 3
    let w := t.takeWhile isWS
    if w = [] then s
    else
      let u := t.drop w.length
      let g := u.takeWhile isWord
      if g = [] then s
      else
        let v := u.drop g.length
        let w2 := v.takeWhile isWS
        if w2 = [] then s
        else
          let x := v.drop w2.length
          if "is".data.isPrefixOf x then
            let w3 := (x.drop 2).takeWhile isWS
            if w3 = [] then s
            else g ++ " is ".data ++ (x.drop (2 + w3.length))
          else s
  else s

/-- Source lines 87-89: `re.match(r'^requires\s+([\w.]+)\s*$', s)` rebuilt as
`f"requires {g} >= 0.0.1"`.  `([\w.]+)` is the maximal `[\w.]` run; the match
requires everything after it to be whitespace. -/
def sysVer (s : List Char) : List Char :=
  if "requires".data.isPrefixOf s then
    let t := s.drop 8
    let w := t.takeWhile isWS
    if w = [] then s
    else
      let u := t.drop w.length
      let g := u.takeWhile isSubj
      if g = [] then s
      else
        let rest := u.drop g.length
        if rest.all isWS then "requires ".data ++ g ++ " >= 0.0.1".data
        else s
  else s

/-- Per-line body of the `for line in lines` loop of `fix_body_syntax`
(source lines 32-91). -/
def fixLine (decl_type : List Char) (line : List Char) : List Char :=
  let stripped := strip line
  let indent := line.length - (lstrip line).length
  let pre : List Char := List.replicate indent ' '
  if stripped = [] || "//".data.isPrefixOf stripped then line
  else
    let s1 := subDF stripped
    let s2 := subReq s1
    let s3 := dequal s2
    let s4 :=
      if decl_type = "trait".data then traitIs (traitEmits (traitUses s3))
      else if decl_type = "constraint".data then constraintNever (constraintMatches s3)
      else if decl_type = "system".data then sysVer (sysAll (sysReq s3))
      else s3
    pre ++ s4

/-- Source lines 27-93: `fix_body_syntax(body, decl_type)`. -/
def fix_body_syntax (body : List Char) (decl_type : List Char) : List Char :=
  joinNL ((splitNL body).map (fixLine decl_type))

/-! ## Declaration scanner (`split_dol_file`, source lines 95-177)

The scan pattern (source line 106) is
`(?:^|\n)\s*(gene|trait|constraint|system)\s+([\w.@\s>]+?)\s*\{`, searched
with `re.search` on the slice `content_no_comments[pos:]`.  `re.search` tries
match starts left to right; the `(?:^|\n)` alternation means a candidate core
position is either the start of the slice or a position preceded by a newline
(the newline being part of the match does not affect `match.end()`, the only
datum the source uses).  Within a candidate: `\s*` is the maximal whitespace
run (it cannot backtrack into a keyword letter), the keywords have pairwise
distinct initials, `\s+` after the keyword is tried longest-first, the name
group `[\w.@\s>]+?` is lazy (grown shortest-first), and the final `\s*` before
`{` is again a maximal run. -/

/-- Source line 101: `re.sub(r'//[^\n]*', '', content)` — remove each `//…`
span up to (not including) the next newline. -/
def stripCommentsAux : Nat → List Char → List Char
  | 0, s => s
  | _ + 1, [] => []
  | fuel + 1, c :: r =>
    if c = '/' then
      match r with
      | '/' :: r2 => stripCommentsAux fuel (r2.dropWhile (fun d => d ≠ '\n'))
      | _ => c :: stripCommentsAux fuel r
    else c :: stripCommentsAux fuel r

def stripComments (s : List Char) : List Char :=
  stripCommentsAux (s.length + 1) s

/-- The keyword alternation `(gene|trait|constraint|system)`, tried in order. -/
def kwAt (s : List Char) : Option (List Char) :=
  (["gene", "trait", "constraint", "system"].map String.data).find?
    (fun kw => kw.isPrefixOf s)

/-- Lazy growth of the name group `([\w.@\s>]+?)` followed by `\s*\{`.
`accB` is the (nonempty) name matched so far, `rest` the text after it and
`restPos` the absolute position of `rest`.  First check whether the current
name already closes the match (maximal whitespace run, then `{`); otherwise
extend the name by one class character. -/
def tryBAux : Nat → List Char → List Char → Nat → Option (List Char × Nat)
  | 0, _, _, _ => none
  | fuel + 1, accB, rest, restPos =>
    let cw := rest.takeWhile isWS
    match (rest.drop cw.length).head? with
    | some '{' => some (accB, restPos + cw.length)
    | _ =>
      match rest with
      | c :: r =>
        if isNameChar c then tryBAux fuel (accB ++ [c]) r (restPos + 1) else none
      | [] => none

/-- Backtracking over the length of the `\s+` run after the keyword, tried
longest-first (greedy); for each length the lazy name group starts right
after it. -/
def tryA : Nat → List Char → Nat → Option (List Char × Nat)
  | 0, _, _ => none
  | aLen + 1, afterKw, kwEnd =>
    let u := afterKw.drop (aLen + 1)
    let r :=
      match u with
      | c :: r2 => if isNameChar c then tryBAux (r2.length + 1) [c] r2 (kwEnd + aLen + 2) else none
      | [] => none
    match r with
    | some x => some x
    | none => tryA aLen afterKw kwEnd

/-- Match attempt of the core of the declaration pattern (everything after the
`(?:^|\n)` prefix) at absolute position `q` of `content`: maximal `\s*` run,
keyword, `\s+`, lazy name, `\s*`, `{`.  Returns the keyword, the raw name
group and the absolute position of the matched `{`. -/
def matchCore (content : List Char) (q : Nat) : Option (List Char × List Char × Nat) :=
  let s := content.drop q
  let w0 := s.takeWhile isWS
  let s1 := s.drop w0.length
  match kwAt s1 with
  | none => none
  | some kw =>
    let t := s1.drop kw.length
    let a := t.takeWhile isWS
    if a = [] then none
    else
      match tryA a.length t (q + w0.length + kw.length) with
      | none => none
      | some (nm, brace) => some (kw, nm, brace)

/-- Candidate-position loop of `re.search` for the declaration pattern:
`prevNL` records whether a core match may start at `q` (start of the searched
slice, or previous character a newline); `remaining = content.drop q`. -/
def fdAux (content : List Char) : Bool → Nat → List Char → Option (List Char × List Char × Nat)
  | prevNL, q, remaining =>
    match (if prevNL then matchCore content q else none) with
    | some r => some r
    | none =>
      match remaining with
      | [] => none
      | c :: rest => fdAux content (c = '\n') (q + 1) rest

/-- Source lines 110-118: `re.search(decl_pattern, content_no_comments[pos:])`,
returning keyword, raw name group and the absolute offset of the opening brace
(`body_start = pos + match.end() - 1`). -/
def findDecl (content : List Char) (pos : Nat) : Option (List Char × List Char × Nat) :=
  fdAux content true pos (content.drop pos)

/-- Match attempt of `\s*exegesis\s*\{` reduced to its core: since `\s*` may be
empty, `re.search` succeeds exactly when some position starts with
`exegesis` followed by a whitespace run and `{`; the leading `\s*` only moves
the match start leftwards over whitespace without changing `match.end()`.
Returns the offset (relative to the searched suffix) of the matched `{`. -/
def exegAt (s : List Char) : Option Nat :=
  if "exegesis".data.isPrefixOf s then
    let t := s.drop 8
    let w := t.takeWhile isWS
    match (t.drop w.length).head? with
    | some '{' => some (8 + w.length)
    | _ => none
  else none

def feAux (content : List Char) : Nat → List Char → Option Nat
  | q, remaining =>
    match exegAt remaining with
    | some off => some (q + off)
    | none =>
      match remaining with
      | [] => none
      | _ :: rest => feAux content (q + 1) rest

/-- Source lines 125-130: `re.search(r'\s*exegesis\s*\{', content[body_end+1:])`
translated to the absolute position of the matched `{`
(`exegesis_start = body_end + 1 + match.end() - 1`). -/
def findExegesis (content : List Char) (start : Nat) : Option Nat :=
  feAux content start (content.drop start)

/-- Source line 141: `re.sub(r'\{(\w+)\}', r'<\1>', exegesis)` — replace each
`{word}` placeholder (nonempty word run, greedy, deterministic) with `<word>`. -/
def subPlaceholderAux : Nat → List Char → List Char
  | 0, s => s
  | _ + 1, [] => []
  | fuel + 1, c :: r =>
    if c = '{' then
      let w := r.takeWhile isWord
      if w ≠ [] ∧ (r.drop w.length).head? = some '}' then
        '<' :: w ++ '>' :: subPlaceholderAux fuel (r.drop (w.length + 1))
      else '{' :: subPlaceholderAux fuel r
    else c :: subPlaceholderAux fuel r

def subPlaceholder (s : List Char) : List Char :=
  subPlaceholderAux (s.length + 1) s

/-- Source lines 141-143: placeholder escaping followed by
`.replace('{', '(').replace('}', ')')` (pointwise, as the replacements are
brace-free). -/
def sanitizeExegesis (s : List Char) : List Char :=
  (subPlaceholder s).map (fun c => if c = '{' then '(' else if c = '}' then ')' else c)

/-- Source line 137: `name.replace(' ', '_').replace('@', '_').replace('>', '_').replace('.', '_')`. -/
def filenameOf (name : List Char) : List Char :=
  name.map (fun c => if c = ' ' || c = '@' || c = '>' || c = '.' then '_' else c)

/-- The dictionary appended at source lines 145-151. -/
structure Decl where
  type : List Char
  name : List Char
  body : List Char
  exegesis : List Char
  filename : List Char
deriving DecidableEq, Repr

/-- The `while True` scan loop of `split_dol_file` (source lines 109-153).
`none` models an uncaught exception: an `extract_balanced_braces` call whose
offset does not hold `'{'` (`ValueError` — shown unreachable below), or fuel
exhaustion (also shown unreachable: every iteration advances `pos`). -/
def scanLoop (content : List Char) : Nat → Nat → Option (List Decl)
  | 0, _ => none
  | fuel + 1, pos =>
    match findDecl content pos with
    | none => some []
    | some (kind, rawName, bracePos) =>
      match extract_balanced_braces content bracePos with
      | none => none
      | some (body0, bodyEnd) =>
        let body := fix_body_syntax body0 kind
        let name := strip rawName
        match findExegesis content (bodyEnd + 1) with
        | none =>
          (scanLoop content fuel (bodyEnd + 1)).map
            (fun ds => ⟨kind, name, body, sanitizeExegesis [], filenameOf name⟩ :: ds)
        | some egPos =>
          match extract_balanced_braces content egPos with
          | none => none
          | some (eg, egEnd) =>
            (scanLoop content fuel (egEnd + 1)).map
              (fun ds => ⟨kind, name, body, sanitizeExegesis eg, filenameOf name⟩ :: ds)

/-- Source lines 95-153: the parsing/extraction core of `split_dol_file`
(comment stripping, scanning, normalisation, sanitisation), returning the
list of extracted declarations; writing the output files is out of scope. -/
def split_dol_file (content : List Char) : Option (List Decl) :=
  let c := stripComments content
  scanLoop c (c.length + 1) 0

/-! ## Claim C1: unterminated-block handling -/

/-- Claim C1 (code_bug evidence): on the spec's scenario input
`gene Foo { no closing brace`, the brace matcher does not fail on the
unterminated block — it silently returns an empty body and the zero-progress
end offset 9 (the offset of the opening brace itself), and the scanner then
continues and emits a declaration with an empty body instead of halting. -/
theorem unterminated_block_is_silent :
    extract_balanced_braces "gene Foo \x7b no closing brace".data 9 = some ([], 9) ∧
    split_dol_file "gene Foo \x7b no closing brace".data =
      some [⟨"gene".data, "Foo".data, [], [], "Foo".data⟩] :=
  ⟨by decide, by decide⟩

/-! ## Claim C2: scanner exactness -/

/-- Claim C2 (code_bug evidence): the input
`gene A {a}\ngene B {b} exegesis {e}` contains two well-formed declarations
(`gene A` without exegesis, `gene B` with one), yet the scanner yields exactly
one declaration: the unanchored exegesis search attaches `e` to `gene A` and
the cursor then skips past `gene B` entirely. -/
theorem scanner_drops_declaration :
    split_dol_file "gene A {a}\ngene B {b} exegesis {e}".data =
      some [⟨"gene".data, "A".data, "a".data, "e".data, "A".data⟩] ∧
    (split_dol_file "gene A {a}\ngene B {b} exegesis {e}".data).map List.length =
      some 1 :=
  ⟨by decide, by decide⟩

/-! ## Claim C3: exegesis attachment -/

/-- Claim C3 (code_bug evidence): in `gene A {a} x exegesis {e}` the nearest
`exegesis {` is separated from the body's closing brace by the non-whitespace
text `x`, so per the claim the declaration's exegesis should be empty; the
unanchored `re.search` nevertheless attaches `e` to the declaration. -/
theorem exegesis_attached_across_text :
    split_dol_file "gene A {a} x exegesis {e}".data =
      some [⟨"gene".data, "A".data, "a".data, "e".data, "A".data⟩] :=
  by decide

/-! ## Claim C4: normalizer idempotence -/

/-- Claim C4 (code_bug evidence): the body normalizer is not idempotent.  For
kind `trait` and body `a uses uses y`, one normalization gives `uses uses y`
(the subject-dropping `uses` rule fires once), and normalizing that output
again gives `uses y` — the rule's own output re-matches its pattern. -/
theorem fix_body_syntax_not_idempotent :
    fix_body_syntax "a uses uses y".data "trait".data = "uses uses y".data ∧
    fix_body_syntax ( fix_body_syntax "a uses uses y".data "trait".data) "trait".data
      = "uses y".data ∧
    fix_body_syntax ( fix_body_syntax "a uses uses y".data "trait".data) "trait".data
      ≠ fix_body_syntax "a uses uses y".data "trait".data :=
  ⟨by decide, by decide, by decide⟩

/-! ## Claim C9: exegesis sanitisation -/

/-- Claim C9: placeholder `{word}` occurrences become `<word>`, a stray `{`
becomes `(`, and no sanitized exegesis contains a brace character. -/
theorem sanitize_exegesis_ok :
    sanitizeExegesis "does {name} things".data = "does <name> things".data ∧
    sanitizeExegesis "\x7b".data = "(".data ∧
    ∀ s : List Char, '{' ∉ sanitizeExegesis s ∧ '}' ∉ sanitizeExegesis s := by
  refine ⟨by decide, by decide, fun s => ⟨?_, ?_⟩⟩ <;>
  · intro h
    rw [sanitizeExegesis] at h
    obtain ⟨c, _, hfc⟩ := List.mem_map.1 h
    split_ifs at hfc <;> simp_all

/-! ## Claim C5: brace-matching round trip -/

/-- Depth contribution of one character. -/
def charDelta (c : Char) : Int :=
  if c = '{' then 1 else if c = '}' then -1 else 0

/-- Total depth change over a string. -/
def braceDelta (s : List Char) : Int :=
  (s.map charDelta).sum

/-- Every prefix keeps the running depth (started at `d`) nonnegative. -/
def prefNonneg : Int → List Char → Bool
  | _, [] => true
  | d, c :: r => decide (0 ≤ d + charDelta c) && prefNonneg (d + charDelta c) r

/-- Balanced brace nesting: no prefix closes more braces than it opens and the
total depth change is zero. -/
def BalancedBraces (s : List Char) : Prop :=
  prefNonneg 0 s = true ∧ braceDelta s = 0

instance (s : List Char) : Decidable (BalancedBraces s) := by
  unfold BalancedBraces; infer_instance

theorem braceDelta_cons (c : Char) (r : List Char) :
    braceDelta (c :: r) = charDelta c + braceDelta r := by
  simp [braceDelta]

/-- Running the brace-matcher loop through a string whose prefixes keep the
depth positive neither exits nor loses track: it proceeds to the tail with the
accumulated depth. -/
theorem braceLoop_through (X : List Char) :
    ∀ (e : Int) (i : Nat) (tail : List Char),
      prefNonneg e X = true → 0 ≤ e →
      braceLoop (X ++ tail) (e + 1) i = braceLoop tail (e + braceDelta X + 1) (i + X.length) := by
  induction X with
  | nil => intro e i tail _ _; simp [braceDelta]
  | cons c X2 ih =>
    intro e i tail hpref he
    have hpref2 : (decide (0 ≤ e + charDelta c) && prefNonneg (e + charDelta c) X2) = true := hpref
    rw [Bool.and_eq_true] at hpref2
    have h0 : (0 : Int) ≤ e + charDelta c := of_decide_eq_true hpref2.1
    have hstep : braceLoop ((c :: X2) ++ tail) (e + 1) i
        = braceLoop (X2 ++ tail) (e + charDelta c + 1) (i + 1) := by
      show braceLoop (c :: (X2 ++ tail)) (e + 1) i = _
      rw [braceLoop]
      have hne : ¬(c = '}' ∧ (if c = '{' then e + 1 + 1 else if c = '}' then e + 1 - 1 else e + 1) = 0) := by
        rintro ⟨hc, hz⟩
        subst hc
        simp [charDelta] at hz h0
        omega
      rw [if_neg hne]
      congr 1
      simp only [charDelta]
      split_ifs <;> simp_all
    rw [hstep, ih (e + charDelta c) (i + 1) tail hpref2.2 h0, braceDelta_cons]
    have hA : e + (charDelta c + braceDelta X2) + 1 = e + charDelta c + braceDelta X2 + 1 := by
      ring
    have hB : i + (c :: X2).length = i + 1 + X2.length := by
      simp [List.length_cons]; omega
    rw [hA, hB]

/-- Claim C5: for any `X` with balanced brace nesting, matching at offset 0 of
`"{" + X + "}"` returns body `X` and end offset `len(X) + 1`. -/
theorem brace_round_trip (X : List Char) (h : BalancedBraces X) :
    extract_balanced_braces ('{' :: X ++ ['}']) 0 = some (X, X.length + 1) := by
  obtain ⟨hpref, hdelta⟩ := h
  have hloop : braceLoop (('{' :: X ++ ['}']).drop 0) 0 0 = some (X.length + 1) := by
    simp only [List.drop_zero]
    show braceLoop ('{' :: (X ++ ['}'])) 0 0 = some (X.length + 1)
    rw [braceLoop]
    have hcond : ¬(('{' : Char) = '}' ∧
        (if ('{' : Char) = '{' then (0 : Int) + 1 else if ('{' : Char) = '}' then 0 - 1 else 0) = 0) := by
      simp
    rw [if_neg hcond]
    have h1 : (if ('{' : Char) = '{' then (0 : Int) + 1
        else if ('{' : Char) = '}' then 0 - 1 else 0) = 0 + 1 := by simp
    rw [h1]
    rw [braceLoop_through X 0 1 ['}'] hpref le_rfl, hdelta]
    show braceLoop ['}'] (0 + 0 + 1) (1 + X.length) = some (X.length + 1)
    rw [braceLoop]
    simp [Nat.add_comm]
  have htake : ('{' :: X ++ ['}']).take (X.length + 1) = '{' :: X := by
    show ('{' :: (X ++ ['}'])).take (X.length + 1) = '{' :: X
    rw [List.take_succ_cons, List.take_left]
  unfold extract_balanced_braces
  simp only [List.get?_cons_zero] at hloop ⊢
  rw [hloop]
  simp only [Option.getD_some, pySlice, htake]
  simp

/-- Witness for C5 at the concrete balanced body `a{b}c`. -/
theorem brace_round_trip_witness :
    BalancedBraces "a{b}c".data ∧
    extract_balanced_braces ('{' :: "a{b}c".data ++ ['}']) 0 = some ("a{b}c".data, 6) :=
  ⟨by decide, brace_round_trip "a{b}c".data (by decide)⟩

/-! ## Claim C8: default version floor for `requires` lines (system kind)

Helper lemmas about character classes and list scanning, shared below. -/

theorem ws_not_subj {c : Char} (h : isWS c = true) : isSubj c = false := by
  simp only [isWS, Bool.or_eq_true, decide_eq_true_eq] at h
  rcases h with ((((h | h) | h) | h) | h) | h <;> subst h <;> decide

theorem subj_not_ws {c : Char} (h : isSubj c = true) : isWS c = false := by
  cases hws : isWS c
  · rfl
  · rw [ws_not_subj hws] at h; exact absurd h (by simp)

theorem takeWhile_append_all {p : Char → Bool} {a : List Char} (b : List Char)
    (ha : ∀ c ∈ a, p c = true) : (a ++ b).takeWhile p = a ++ b.takeWhile p := by
  induction a with
  | nil => simp
  | cons c r ih =>
    have hc : p c = true := ha c (by simp)
    simp only [List.cons_append, List.takeWhile_cons, hc, if_true]
    rw [ih (fun d hd => ha d (List.mem_cons_of_mem _ hd))]

theorem takeWhile_nil_of_head {p : Char → Bool} {b : List Char}
    (hb : ∀ c, b.head? = some c → p c = false) : b.takeWhile p = [] := by
  cases b with
  | nil => rfl
  | cons c r => simp [List.takeWhile_cons, hb c rfl]

theorem dropWhile_eq_self_of_head {p : Char → Bool} {l : List Char}
    (h : ∀ c, l.head? = some c → p c = false) : l.dropWhile p = l := by
  cases l with
  | nil => rfl
  | cons c r => simp [List.dropWhile_cons, h c rfl]

theorem rstrip_eq_self {l : List Char}
    (h : ∀ c, l.getLast? = some c → isWS c = false) : rstrip l = l := by
  rw [rstrip, dropWhile_eq_self_of_head, List.reverse_reverse]
  intro c hc
  rw [List.head?_reverse] at hc
  exact h c hc

theorem strip_eq_self {l : List Char}
    (hh : ∀ c, l.head? = some c → isWS c = false)
    (hl : ∀ c, l.getLast? = some c → isWS c = false) : strip l = l := by
  rw [strip, lstrip, dropWhile_eq_self_of_head hh, rstrip_eq_self hl]

theorem matchDF_none_of_no_ws {s : List Char} (h : ∀ c ∈ s, isWS c = false) :
    matchDF s = none := by
  rw [matchDF]
  split
  · dsimp only
    rw [takeWhile_nil_of_head (fun c hc => by
      have : c ∈ s := List.mem_of_mem_drop (List.mem_of_mem_head? hc)
      exact h c this)]
    simp
  · rfl

theorem matchReq_none_of_no_ws {s : List Char} (h : ∀ c ∈ s, isWS c = false) :
    matchReq s = none := by
  rw [matchReq]
  split
  · dsimp only
    rw [takeWhile_nil_of_head (fun c hc => by
      have : c ∈ s := List.mem_of_mem_drop (List.mem_of_mem_head? hc)
      exact h c this)]
    simp
  · rfl

theorem subDFAux_eq_self :
    ∀ (fuel : Nat) (p : Bool) (s : List Char),
      (∀ n, matchDF (s.drop n) = none) → subDFAux fuel p s = s := by
  intro fuel
  induction fuel with
  | zero => intro p s _; rfl
  | succ fuel ih =>
    intro p s h
    cases s with
    | nil => rfl
    | cons c r =>
      have h0 : matchDF (c :: r) = none := by simpa using h 0
      have hbranch : (if p then none else matchDF (c :: r)) = none := by
        cases p <;> simp [h0]
      simp only [subDFAux, hbranch]
      exact congrArg (c :: ·) (ih (isWord c) r (fun n => by simpa using h (n + 1)))

theorem subDF_eq_self {s : List Char} (h : ∀ n, matchDF (s.drop n) = none) :
    subDF s = s :=
  subDFAux_eq_self _ false s h

theorem subReqAux_eq_self :
    ∀ (fuel : Nat) (p : Bool) (s : List Char),
      (∀ n, matchReq (s.drop n) = none) → subReqAux fuel p s = s := by
  intro fuel
  induction fuel with
  | zero => intro p s _; rfl
  | succ fuel ih =>
    intro p s h
    cases s with
    | nil => rfl
    | cons c r =>
      have h0 : matchReq (c :: r) = none := by simpa using h 0
      have hbranch : (if p then none else matchReq (c :: r)) = none := by
        cases p <;> simp [h0]
      simp only [subReqAux, hbranch]
      exact congrArg (c :: ·) (ih (isWord c) r (fun n => by simpa using h (n + 1)))

theorem subReq_eq_self {s : List Char} (h : ∀ n, matchReq (s.drop n) = none) :
    subReq s = s :=
  subReqAux_eq_self _ false s h

theorem matchDF_requires (m : List Char) (hm : ∀ c ∈ m, isWS c = false) :
    ∀ n, matchDF (("requires ".data ++ m).drop n) = none := by
  intro n
  rcases n with _ | _ | _ | _ | _ | _ | _ | _ | _ | n
  · rfl
  · rfl
  · rfl
  · rfl
  · rfl
  · rfl
  · rfl
  · rfl
  · rfl
  · have h9 : ("requires ".data ++ m).drop (n + 9) = m.drop n := by
      rw [show n + 9 = "requires ".data.length + n from by simp [Nat.add_comm],
        List.drop_append]
    rw [h9]
    exact matchDF_none_of_no_ws (fun c hc => hm c (List.mem_of_mem_drop hc))

theorem matchReq_requires (m : List Char) (hm : ∀ c ∈ m, isWS c = false) :
    ∀ n, matchReq (("requires ".data ++ m).drop n) = none := by
  intro n
  rcases n with _ | _ | _ | _ | _ | _ | _ | _ | _ | n
  · rfl
  · rfl
  · rfl
  · rfl
  · rfl
  · rfl
  · rfl
  · rfl
  · rfl
  · have h9 : ("requires ".data ++ m).drop (n + 9) = m.drop n := by
      rw [show n + 9 = "requires ".data.length + n from by simp [Nat.add_comm],
        List.drop_append]
    rw [h9]
    exact matchReq_none_of_no_ws (fun c hc => hm c (List.mem_of_mem_drop hc))

theorem dequal_requires (m : List Char) (hsub : ∀ c ∈ m, isSubj c = true) :
    dequal ("requires ".data ++ m) = "requires ".data ++ m := by
  have hmws : ∀ c, m.head? = some c → isWS c = false := fun c hc =>
    subj_not_ws (hsub c (List.mem_of_mem_head? hc))
  have hsubject : ("requires ".data ++ m).takeWhile isSubj = "requires".data := by
    rw [show "requires ".data ++ m = "requires".data ++ (' ' :: m) from rfl,
      takeWhile_append_all (' ' :: m) (by decide)]
    rw [show (' ' :: m).takeWhile isSubj = [] from by
      rw [List.takeWhile_cons]
      simp [show isSubj ' ' = false from by decide]]
    simp
  have ht : ("requires ".data ++ m).drop ("requires".data.length) = ' ' :: m := by
    rw [show "requires ".data ++ m = "requires".data ++ (' ' :: m) from rfl,
      List.drop_left]
  have hw : (' ' :: m).takeWhile isWS = [' '] := by
    rw [List.takeWhile_cons]
    simp only [show isWS ' ' = true from rfl, if_true]
    rw [takeWhile_nil_of_head hmws]
  have hu : (' ' :: m).drop ([' '] : List Char).length = m := rfl
  simp only [dequal, hsubject, ht, hw, hu]
  rw [if_neg (show ¬("requires".data = ([] : List Char)) from by simp)]
  rw [if_neg (show ¬(([' '] : List Char) = []) from by simp)]
  cases hv : verbAt m with
  | none => simp [hv]
  | some v =>
    simp only [hv]
    rw [if_neg (show ¬('.' ∈ "requires".data) from by decide)]

theorem sysVer_requires (m : List Char) (hm : m ≠ []) (hsub : ∀ c ∈ m, isSubj c = true) :
    sysVer ("requires ".data ++ m) = "requires ".data ++ m ++ " >= 0.0.1".data := by
  have hmws : ∀ c, m.head? = some c → isWS c = false := fun c hc =>
    subj_not_ws (hsub c (List.mem_of_mem_head? hc))
  have ht : ("requires ".data ++ m).drop 8 = ' ' :: m := rfl
  have hw : (' ' :: m).takeWhile isWS = [' '] := by
    rw [List.takeWhile_cons]
    simp only [show isWS ' ' = true from rfl, if_true]
    rw [takeWhile_nil_of_head hmws]
  have hu : (' ' :: m).drop ([' '] : List Char).length = m := rfl
  have hg : m.takeWhile isSubj = m := List.takeWhile_eq_self_iff.mpr hsub
  have hrest : m.drop m.length = [] := List.drop_length m
  simp only [sysVer, ht, hw, hu, hg, hrest]
  rw [if_pos (show ("requires".data.isPrefixOf ("requires ".data ++ m)) = true from rfl)]
  rw [if_neg (show ¬(([' '] : List Char) = []) from by simp)]
  rw [if_neg hm]
  rw [if_pos (show (([] : List Char).all isWS) = true from rfl)]

theorem c8_fixLine (m : List Char) (hm : m ≠ []) (hsub : ∀ c ∈ m, isSubj c = true) :
    fixLine "system".data ("requires ".data ++ m)
      = "requires ".data ++ m ++ " >= 0.0.1".data := by
  have hmws : ∀ c ∈ m, isWS c = false := fun c hc => subj_not_ws (hsub c hc)
  have hstrip : strip ("requires ".data ++ m) = "requires ".data ++ m := by
    apply strip_eq_self
    · intro c hc
      rw [show ("requires ".data ++ m).head? = some 'r' from rfl] at hc
      injection hc with h
      subst h
      decide
    · intro c hc
      rw [List.getLast?_append] at hc
      obtain ⟨d, hd⟩ := Option.isSome_iff_exists.mp (List.getLast?_isSome.mpr hm)
      rw [hd] at hc
      rw [show (some d).or ("requires ".data.getLast?) = some d from rfl] at hc
      injection hc with h
      subst h
      exact hmws d (List.mem_of_getLast?_eq_some hd)
  have hlstrip : lstrip ("requires ".data ++ m) = "requires ".data ++ m :=
    dropWhile_eq_self_of_head (fun c hc => by
      rw [show ("requires ".data ++ m).head? = some 'r' from rfl] at hc
      injection hc with h
      subst h
      decide)
  have h1 : subDF ("requires ".data ++ m) = "requires ".data ++ m :=
    subDF_eq_self (matchDF_requires m hmws)
  have h2 : subReq ("requires ".data ++ m) = "requires ".data ++ m :=
    subReq_eq_self (matchReq_requires m hmws)
  have h3 := dequal_requires m hsub
  have h4 : sysReq ("requires ".data ++ m) = "requires ".data ++ m := rfl
  have h5 : sysAll ("requires ".data ++ m) = "requires ".data ++ m := rfl
  have h6 := sysVer_requires m hm hsub
  have hcond : (decide (("requires ".data ++ m) = []) ||
      "//".data.isPrefixOf ("requires ".data ++ m)) = false := by
    rw [show "//".data.isPrefixOf ("requires ".data ++ m) = false from rfl]
    simp
  simp only [fixLine, hstrip, hlstrip, h1, h2, h3, h4, h5, h6, hcond, Bool.false_eq_true,
    if_false, Nat.sub_self]
  simp

theorem sysVer_versioned (m v : List Char) (hm : m ≠ []) (hsub : ∀ c ∈ m, isSubj c = true) :
    sysVer ("requires ".data ++ m ++ " >= ".data ++ v)
      = "requires ".data ++ m ++ " >= ".data ++ v := by
  have hmws : ∀ c, m.head? = some c → isWS c = false := fun c hc =>
    subj_not_ws (hsub c (List.mem_of_mem_head? hc))
  have hassoc : "requires ".data ++ m ++ " >= ".data ++ v
      = "requires".data ++ (' ' :: (m ++ (' ' :: '>' :: '=' :: ' ' :: v))) := by
    simp
  rw [hassoc]
  have hpre : ("requires".data.isPrefixOf
      ("requires".data ++ (' ' :: (m ++ (' ' :: '>' :: '=' :: ' ' :: v))))) = true := by
    rw [List.isPrefixOf_iff_prefix]
    exact ⟨_, rfl⟩
  have ht : ("requires".data ++ (' ' :: (m ++ (' ' :: '>' :: '=' :: ' ' :: v)))).drop 8
      = ' ' :: (m ++ (' ' :: '>' :: '=' :: ' ' :: v)) := by
    rw [show (8 : Nat) = "requires".data.length from rfl, List.drop_left]
  have hw : (' ' :: (m ++ (' ' :: '>' :: '=' :: ' ' :: v))).takeWhile isWS = [' '] := by
    rw [List.takeWhile_cons]
    simp only [show isWS ' ' = true from rfl, if_true]
    rw [takeWhile_nil_of_head (fun c hc => by
      rcases m with _ | ⟨a, m2⟩
      · exact absurd rfl hm
      · rw [show ((a :: m2 : List Char) ++ (' ' :: '>' :: '=' :: ' ' :: v)).head? = some a from rfl] at hc
        injection hc with h
        subst h
        exact hmws a rfl)]
  have hu : (' ' :: (m ++ (' ' :: '>' :: '=' :: ' ' :: v))).drop ([' '] : List Char).length
      = m ++ (' ' :: '>' :: '=' :: ' ' :: v) := rfl
  have hg : (m ++ (' ' :: '>' :: '=' :: ' ' :: v)).takeWhile isSubj = m := by
    rw [takeWhile_append_all _ hsub]
    rw [show ((' ' :: '>' :: '=' :: ' ' :: v) : List Char).takeWhile isSubj = [] from by
      rw [List.takeWhile_cons]
      simp [show isSubj ' ' = false from by decide]]
    simp
  have hrest : (m ++ (' ' :: '>' :: '=' :: ' ' :: v)).drop m.length
      = ' ' :: '>' :: '=' :: ' ' :: v := List.drop_left m _
  simp only [sysVer, hpre, if_true, ht, hw, hu, hg, hrest]
  rw [if_neg (show ¬(([' '] : List Char) = []) from by simp)]
  rw [if_neg hm]
  rw [if_neg (show ¬(((' ' :: '>' :: '=' :: ' ' :: v : List Char)).all isWS = true) from by
    intro hall
    simp only [List.all_cons, show isWS '>' = false from rfl, Bool.false_and,
      Bool.and_false, Bool.false_eq_true] at hall)]

/-- Claim C8: in a `system` body, a line of the exact form
`requires <dotted-module-name>` (a nonempty `[\w.]` token, nothing after it) is
normalized to `requires <dotted-module-name> >= 0.0.1`; a line that already
carries a version qualifier (`requires <module> >= <version>`) is left
unchanged by the version-floor rule; in particular `requires foo.bar`
normalizes to `requires foo.bar >= 0.0.1`. -/
theorem requires_version_floor :
    (∀ m : List Char, m ≠ [] → (∀ c ∈ m, isSubj c = true) →
      fixLine "system".data ("requires ".data ++ m)
        = "requires ".data ++ m ++ " >= 0.0.1".data) ∧
    (∀ m v : List Char, m ≠ [] → (∀ c ∈ m, isSubj c = true) →
      sysVer ("requires ".data ++ m ++ " >= ".data ++ v)
        = "requires ".data ++ m ++ " >= ".data ++ v) ∧
    fix_body_syntax "requires foo.bar".data "system".data
      = "requires foo.bar >= 0.0.1".data :=
  ⟨fun m hm hs => c8_fixLine m hm hs,
   fun m v hm hs => sysVer_versioned m v hm hs,
   by decide⟩

/-- Witness for C8 at module name `foo.bar` and version tail `0.0.5`. -/
theorem requires_version_floor_witness :
    fixLine "system".data ("requires ".data ++ "foo.bar".data)
      = "requires ".data ++ "foo.bar".data ++ " >= 0.0.1".data ∧
    sysVer ("requires ".data ++ "foo.bar".data ++ " >= ".data ++ "0.0.5".data)
      = "requires ".data ++ "foo.bar".data ++ " >= ".data ++ "0.0.5".data :=
  ⟨requires_version_floor.1 "foo.bar".data (by decide) (by decide),
   requires_version_floor.2.1 "foo.bar".data "0.0.5".data (by decide) (by decide)⟩

/-! ## Claim C7: subject dequalification -/

/-- Claim C7 (counterexample): the line `a.require has x` has trimmed content
of the form `<subject> <verb>` with subject `a.require` (containing a dot) and
verb `has`, so the claim predicts `require has x`; but the global
`require → requires` rewrite runs first (matching `.require ` inside the
subject), so the normalizer actually produces `requires has x`. -/
theorem dequalification_counterexample :
    fix_body_syntax "a.require has x".data "gene".data = "requires has x".data ∧
    "requires has x".data ≠ "require has x".data :=
  ⟨by decide, by decide⟩

theorem verbAt_self (verb rest : List Char)
    (hv : verb ∈ (["has", "is", "derives", "requires", "matches", "never", "emits"].map
      String.data))
    (hb : ∀ c, rest.head? = some c → isWord c = false) :
    verbAt (verb ++ rest) = some verb := by
  cases rest with
  | nil =>
    fin_cases hv <;> simp [List.append_nil] <;> decide
  | cons c rest2 =>
    have hcw : isWord c = false := hb c rfl
    fin_cases hv <;>
      simp [verbAt, List.find?, List.isPrefixOf, List.cons_append, hcw]

/-- Claim C7 (amended): at the dequalification stage — i.e. on the line as it
stands after the global rewrites — a line `<subject> <verb> …` whose subject
(the maximal leading `[\w.]` run) contains a dot, followed by whitespace and a
verb of the fixed set at a word boundary, has its subject replaced by the
subject's last dot-separated segment, the remainder kept verbatim; and the
spec's scenario `authentication.temporal matches x` normalizes to
`temporal matches x` under every declaration kind. -/
theorem dequalification_ok :
    (∀ subject sp verb rest : List Char,
      subject ≠ [] → (∀ c ∈ subject, isSubj c = true) → '.' ∈ subject →
      sp ≠ [] → (∀ c ∈ sp, isWS c = true) →
      verb ∈ (["has", "is", "derives", "requires", "matches", "never", "emits"].map
        String.data) →
      (∀ c, rest.head? = some c → isWord c = false) →
      dequal (subject ++ (sp ++ (verb ++ rest)))
        = lastSeg subject ++ (sp ++ (verb ++ rest))) ∧
    (∀ k ∈ (["gene", "trait", "constraint", "system"].map String.data),
      fix_body_syntax "authentication.temporal matches x".data k
        = "temporal matches x".data) := by
  constructor
  · intro subject sp verb rest hs1 hs2 hdot hp1 hp2 hv hb
    have hvhead : ∀ c, (verb ++ rest).head? = some c → isWS c = false := by
      intro c hc
      fin_cases hv <;>
        (injection hc with h; subst h; decide)
    have hsubject : (subject ++ (sp ++ (verb ++ rest))).takeWhile isSubj = subject := by
      rw [takeWhile_append_all _ hs2]
      rw [takeWhile_nil_of_head (fun c hc => by
        rcases sp with _ | ⟨a, sp2⟩
        · exact absurd rfl hp1
        · injection hc with h
          subst h
          exact ws_not_subj (hp2 a (by simp)))]
      simp
    have ht : (subject ++ (sp ++ (verb ++ rest))).drop subject.length
        = sp ++ (verb ++ rest) := List.drop_left subject _
    have hw : (sp ++ (verb ++ rest)).takeWhile isWS = sp := by
      rw [takeWhile_append_all _ hp2, takeWhile_nil_of_head hvhead]
      simp
    have hu : (sp ++ (verb ++ rest)).drop sp.length = verb ++ rest :=
      List.drop_left sp _
    have hverb := verbAt_self verb rest hv hb
    simp only [dequal, hsubject, ht, hw, hu, hverb]
    rw [if_neg hs1, if_neg hp1, if_pos hdot]
  · intro k hk
    fin_cases hk <;> decide

/-- Witness for C7 at subject `authentication.temporal`, verb `matches`. -/
theorem dequalification_ok_witness :
    dequal ("authentication.temporal".data ++ (" ".data ++ ("matches".data ++ " x".data)))
      = lastSeg "authentication.temporal".data ++
        (" ".data ++ ("matches".data ++ " x".data)) ∧
    fix_body_syntax "authentication.temporal matches x".data "gene".data
      = "temporal matches x".data :=
  ⟨dequalification_ok.1 "authentication.temporal".data " ".data "matches".data " x".data
      (by decide) (by decide) (by decide) (by decide) (by decide)
      (by simp) (by intro c hc; injection hc with h; subst h; decide),
   dequalification_ok.2 "gene".data (by simp)⟩

/-! ## Claim C6: line-count preservation

The normalizer works line-by-line and no rewrite introduces a newline, so
splitting its output recovers exactly the per-line images. -/

theorem mem_of_mem_takeWhile2 {p : Char → Bool} {l : List Char} {c : Char}
    (h : c ∈ l.takeWhile p) : c ∈ l :=
  (List.takeWhile_prefix p).subset h

theorem mem_of_mem_dropWhile2 {p : Char → Bool} {l : List Char} {c : Char}
    (h : c ∈ l.dropWhile p) : c ∈ l :=
  (List.dropWhile_suffix p).subset h

theorem mem_of_mem_strip {l : List Char} {c : Char} (h : c ∈ strip l) : c ∈ l := by
  rw [strip, rstrip, lstrip] at h
  rw [List.mem_reverse] at h
  have h2 := mem_of_mem_dropWhile2 h
  rw [List.mem_reverse] at h2
  exact mem_of_mem_dropWhile2 h2

theorem mem_of_mem_lastSeg {l : List Char} {c : Char} (h : c ∈ lastSeg l) : c ∈ l := by
  rw [lastSeg, List.mem_reverse] at h
  have h2 := mem_of_mem_takeWhile2 h
  rwa [List.mem_reverse] at h2

theorem noNL_subDFAux : ∀ (fuel : Nat) (p : Bool) (s : List Char),
    '\n' ∉ s → '\n' ∉ subDFAux fuel p s := by
  intro fuel
  induction fuel with
  | zero => intro p s h; exact h
  | succ fuel ih =>
    intro p s h
    cases s with
    | nil => simp [subDFAux]
    | cons c r =>
      cases hm2 : (if p then none else matchDF (c :: r)) with
      | none =>
        simp only [subDFAux, hm2]
        intro hmem
        rcases List.mem_cons.mp hmem with h1 | h1
        · exact h (List.mem_cons.mpr (Or.inl h1))
        · exact ih (isWord c) r (fun hr => h (List.mem_cons_of_mem _ hr)) h1
      | some k =>
        simp only [subDFAux, hm2]
        intro hmem
        rcases List.mem_append.mp hmem with h1 | h1
        · exact absurd h1 (by decide)
        · exact ih true _ (fun hr => h (List.mem_of_mem_drop hr)) h1

theorem noNL_subReqAux : ∀ (fuel : Nat) (p : Bool) (s : List Char),
    '\n' ∉ s → '\n' ∉ subReqAux fuel p s := by
  intro fuel
  induction fuel with
  | zero => intro p s h; exact h
  | succ fuel ih =>
    intro p s h
    cases s with
    | nil => simp [subReqAux]
    | cons c r =>
      cases hm2 : (if p then none else matchReq (c :: r)) with
      | none =>
        simp only [subReqAux, hm2]
        intro hmem
        rcases List.mem_cons.mp hmem with h1 | h1
        · exact h (List.mem_cons.mpr (Or.inl h1))
        · exact ih (isWord c) r (fun hr => h (List.mem_cons_of_mem _ hr)) h1
      | some k =>
        simp only [subReqAux, hm2]
        intro hmem
        rcases List.mem_append.mp hmem with h1 | h1
        · exact absurd h1 (by decide)
        · exact ih false _ (fun hr => h (List.mem_of_mem_drop hr)) h1

theorem noNL_dequal {s : List Char} (h : '\n' ∉ s) : '\n' ∉ dequal s := by
  rw [dequal]
  dsimp only
  split
  · exact h
  · split
    · exact h
    · split
      · exact h
      · split
        · intro hmem
          rcases List.mem_append.mp hmem with h1 | h1
          · exact h (mem_of_mem_takeWhile2 (mem_of_mem_lastSeg h1))
          · exact h (List.mem_of_mem_drop h1)
        · exact h

theorem noNL_traitUses {s : List Char} (h : '\n' ∉ s) : '\n' ∉ traitUses s := by
  rw [traitUses]
  dsimp only
  split
  · exact h
  · split
    · exact h
    · split
      · split
        · exact h
        · intro hmem
          rcases List.mem_append.mp hmem with h1 | h1
          · exact absurd h1 (by decide)
          · exact h (List.mem_of_mem_drop
              (List.mem_of_mem_drop (List.mem_of_mem_drop h1)))
      · exact h

theorem noNL_traitEmits {s : List Char} (h : '\n' ∉ s) : '\n' ∉ traitEmits s := by
  rw [traitEmits]
  split
  · intro hmem
    rcases List.mem_append.mp hmem with h1 | h1
    · exact absurd h1 (by decide)
    · exact h h1
  · exact h

theorem noNL_traitIs {s : List Char} (h : '\n' ∉ s) : '\n' ∉ traitIs s := by
  rw [traitIs]
  dsimp only
  split
  · split
    · exact h
    · split
      · split
        · intro hmem
          rcases List.mem_append.mp hmem with h1 | h1
          · exact absurd h1 (by decide)
          · exact h h1
        · exact h
      · exact h
  · exact h

theorem noNL_constraintMatches {s : List Char} (h : '\n' ∉ s) :
    '\n' ∉ constraintMatches s := by
  have hg1 : ∀ c ∈ ((s.drop 7).drop ((s.drop 7).takeWhile isWS).length).takeWhile isWord,
      c ∈ s := fun c hc =>
    List.mem_of_mem_drop (List.mem_of_mem_drop (mem_of_mem_takeWhile2 hc))
  rw [constraintMatches]
  dsimp only
  split
  · split
    · exact h
    · split
      · exact h
      · split
        · exact h
        · split
          · split
            · intro hmem
              rcases List.mem_append.mp hmem with h1 | h1
              · rcases List.mem_append.mp h1 with h2 | h2
                · exact h (hg1 _ h2)
                · exact absurd h2 (by decide)
              · exact h (List.mem_of_mem_drop (List.mem_of_mem_drop
                  (List.mem_of_mem_drop (mem_of_mem_takeWhile2
                    (List.mem_of_mem_drop h1)))))
            · exact h
          · intro hmem
            rcases List.mem_append.mp hmem with h1 | h1
            · rcases List.mem_append.mp h1 with h2 | h2
              · exact h (hg1 _ h2)
              · exact absurd h2 (by decide)
            · exact h (List.mem_of_mem_drop (List.mem_of_mem_drop
                (List.mem_of_mem_drop (List.mem_of_mem_drop h1))))
  · exact h

theorem noNL_constraintNever {s : List Char} (h : '\n' ∉ s) :
    '\n' ∉ constraintNever s := by
  rw [constraintNever]
  split
  · intro hmem
    rcases List.mem_append.mp hmem with h1 | h1
    · exact absurd h1 (by decide)
    · exact h h1
  · exact h

theorem noNL_sysReq {s : List Char} (h : '\n' ∉ s) : '\n' ∉ sysReq s := by
  rw [sysReq]
  dsimp only
  split
  · split
    · exact h
    · split
      · split
        · exact h
        · intro hmem
          rcases List.mem_append.mp hmem with h1 | h1
          · exact absurd h1 (by decide)
          · exact h (List.mem_of_mem_drop
              (List.mem_of_mem_drop (List.mem_of_mem_drop h1)))
      · exact h
  · exact h

theorem noNL_sysAll {s : List Char} (h : '\n' ∉ s) : '\n' ∉ sysAll s := by
  rw [sysAll]
  dsimp only
  split
  · split
    · exact h
    · split
      · exact h
      · split
        · exact h
        · split
          · split
            · exact h
            · intro hmem
              rcases List.mem_append.mp hmem with h1 | h1
              · rcases List.mem_append.mp h1 with h2 | h2
                · exact h (List.mem_of_mem_drop
                    (List.mem_of_mem_drop (mem_of_mem_takeWhile2 h2)))
                · exact absurd h2 (by decide)
              · exact h (List.mem_of_mem_drop (List.mem_of_mem_drop
                  (List.mem_of_mem_drop (List.mem_of_mem_drop
                    (List.mem_of_mem_drop h1)))))
          · exact h
  · exact h

theorem noNL_sysVer {s : List Char} (h : '\n' ∉ s) : '\n' ∉ sysVer s := by
  rw [sysVer]
  dsimp only
  split
  · split
    · exact h
    · split
      · exact h
      · split
        · intro hmem
          rcases List.mem_append.mp hmem with h1 | h1
          · rcases List.mem_append.mp h1 with h2 | h2
            · exact absurd h2 (by decide)
            · exact h (List.mem_of_mem_drop
                (List.mem_of_mem_drop (mem_of_mem_takeWhile2 h2)))
          · exact absurd h1 (by decide)
        · exact h
  · exact h

theorem noNL_fixLine (k : List Char) {l : List Char} (h : '\n' ∉ l) :
    '\n' ∉ fixLine k l := by
  rw [fixLine]
  dsimp only
  have hstrip : '\n' ∉ strip l := fun hc => h (mem_of_mem_strip hc)
  have hs1 : '\n' ∉ subDF (strip l) := noNL_subDFAux _ false _ hstrip
  have hs2 : '\n' ∉ subReq (subDF (strip l)) := noNL_subReqAux _ false _ hs1
  have hs3 : '\n' ∉ dequal (subReq (subDF (strip l))) := noNL_dequal hs2
  split
  · exact h
  · intro hmem
    rcases List.mem_append.mp hmem with h1 | h1
    · rw [List.mem_replicate] at h1
      exact absurd h1.2 (by decide)
    · revert h1
      split
      · intro h1
        exact noNL_traitIs (noNL_traitEmits (noNL_traitUses hs3)) h1
      · split
        · intro h1
          exact noNL_constraintNever (noNL_constraintMatches hs3) h1
        · split
          · intro h1
            exact noNL_sysVer (noNL_sysAll (noNL_sysReq hs3)) h1
          · intro h1
            exact hs3 h1

theorem splitNL_ne_nil (s : List Char) : splitNL s ≠ [] := by
  induction s with
  | nil => simp [splitNL]
  | cons c r ih =>
    rw [splitNL]
    split
    · simp
    · split
      · simp
      · simp

theorem noNL_mem_splitNL (s : List Char) : ∀ l ∈ splitNL s, '\n' ∉ l := by
  induction s with
  | nil =>
    intro l hl
    simp [splitNL] at hl
    subst hl
    simp
  | cons c r ih =>
    intro l hl
    rw [splitNL] at hl
    by_cases hc : c = '\n'
    · rw [if_pos hc] at hl
      rcases List.mem_cons.mp hl with rfl | hl2
      · simp
      · exact ih l hl2
    · rw [if_neg hc] at hl
      cases hspl : splitNL r with
      | nil => exact absurd hspl (splitNL_ne_nil r)
      | cons hh tt =>
        rw [hspl] at hl
        rcases List.mem_cons.mp hl with rfl | hl2
        · intro hmem
          rcases List.mem_cons.mp hmem with h1 | h1
          · exact hc h1.symm
          · exact ih hh (by rw [hspl]; exact List.mem_cons_self hh tt) h1
        · exact ih l (by rw [hspl]; exact List.mem_cons_of_mem hh hl2)

theorem splitNL_of_noNL {a : List Char} (h : '\n' ∉ a) : splitNL a = [a] := by
  induction a with
  | nil => rfl
  | cons c r ih =>
    rw [splitNL, if_neg (fun hc => h (by simp [hc])),
      ih (fun hr => h (List.mem_cons_of_mem _ hr))]

theorem splitNL_append_nl {a : List Char} (r : List Char) (h : '\n' ∉ a) :
    splitNL (a ++ '\n' :: r) = a :: splitNL r := by
  induction a with
  | nil => rw [List.nil_append, splitNL, if_pos rfl]
  | cons c a2 ih =>
    rw [List.cons_append, splitNL, if_neg (fun hc => h (by simp [hc])),
      ih (fun hr => h (List.mem_cons_of_mem _ hr))]

theorem splitNL_joinNL : ∀ ls : List (List Char), ls ≠ [] →
    (∀ l ∈ ls, '\n' ∉ l) → splitNL (joinNL ls) = ls := by
  intro ls
  induction ls with
  | nil => intro h; exact absurd rfl h
  | cons l ls2 ih =>
    intro _ h
    cases ls2 with
    | nil =>
      rw [show joinNL [l] = l from rfl]
      exact splitNL_of_noNL (h l (List.mem_cons_self l []))
    | cons l2 ls3 =>
      rw [show joinNL (l :: l2 :: ls3) = l ++ '\n' :: joinNL (l2 :: ls3) from rfl]
      rw [splitNL_append_nl _ (h l (List.mem_cons_self l _))]
      rw [ih (by simp) (fun x hx => h x (List.mem_cons_of_mem l hx))]

/-- Claim C6: the normalizer maps each input line to exactly one output line
(so the output's line list is the per-line image of the input's and the line
count is preserved), and blank lines and comment lines (trimmed content
starting with `//`) pass through unchanged, original indentation included. -/
theorem line_count_preserved (k b : List Char) :
    splitNL ( fix_body_syntax b k) = (splitNL b).map (fixLine k) ∧
    (splitNL ( fix_body_syntax b k)).length = (splitNL b).length ∧
    (∀ l ∈ splitNL b, (strip l = [] ∨ "//".data.isPrefixOf (strip l) = true) →
      fixLine k l = l) := by
  have hmain : splitNL ( fix_body_syntax b k) = (splitNL b).map (fixLine k) := by
    rw [ fix_body_syntax]
    apply splitNL_joinNL
    · simp [splitNL_ne_nil b]
    · intro l hl
      obtain ⟨l0, hl0, rfl⟩ := List.mem_map.mp hl
      exact noNL_fixLine k (noNL_mem_splitNL b l0 hl0)
  refine ⟨hmain, by rw [hmain, List.length_map], ?_⟩
  intro l _ hcase
  rcases hcase with h0 | h0
  · simp [fixLine, h0]
  · simp [fixLine, h0]

/-- Witness for C6 at a trait body with a comment line, a blank line and a
rewritten line. -/
theorem line_count_preserved_witness :
    splitNL ( fix_body_syntax "  // c\n\nemits x".data "trait".data)
      = (splitNL "  // c\n\nemits x".data).map (fixLine "trait".data) ∧
    (splitNL ( fix_body_syntax "  // c\n\nemits x".data "trait".data)).length
      = (splitNL "  // c\n\nemits x".data).length ∧
    fixLine "trait".data "  // c".data = "  // c".data :=
  ⟨(line_count_preserved "trait".data "  // c\n\nemits x".data).1,
   (line_count_preserved "trait".data "  // c\n\nemits x".data).2.1,
   (line_count_preserved "trait".data "  // c\n\nemits x".data).2.2 "  // c".data
     (by decide) (Or.inr (by decide))⟩

/-! ## Claim C10: every brace-matcher invocation of the scanner is at `{`

The scanner computes brace offsets only from pattern matches that end in a
literal `{`, so `extract_balanced_braces` is never invoked at a non-`{`
offset and the `ValueError` branch is unreachable; moreover each iteration
advances the cursor, so the whole scan terminates normally on every input. -/

theorem braceLoop_bounds : ∀ (l : List Char) (d : Int) (i j : Nat),
    braceLoop l d i = some j → i ≤ j ∧ j < i + l.length := by
  intro l
  induction l with
  | nil => intro d i j h; exact absurd h (by simp [braceLoop])
  | cons c r ih =>
    intro d i j h
    rw [braceLoop] at h
    generalize (if c = '{' then d + 1 else if c = '}' then d - 1 else d) = d2 at h
    split at h
    · injection h with h2
      subst h2
      simp
    · obtain ⟨h1, h2⟩ := ih d2 (i + 1) j h
      constructor
      · omega
      · simp only [List.length_cons]
        omega

theorem extract_at_brace {content : List Char} {sp : Nat}
    (h : content.get? sp = some '{') :
    ∃ body ep, extract_balanced_braces content sp = some (body, ep) ∧
      sp ≤ ep ∧ ep < content.length := by
  have hlt : sp < content.length := (List.get?_eq_some.mp h).choose
  unfold extract_balanced_braces
  rw [h]
  cases hbl : braceLoop (content.drop sp) 0 sp with
  | none => exact ⟨_, sp, rfl, le_rfl, hlt⟩
  | some j =>
    obtain ⟨h1, h2⟩ := braceLoop_bounds _ _ _ _ hbl
    rw [List.length_drop] at h2
    exact ⟨_, j, rfl, h1, by omega⟩

theorem get?_eq_head?_drop (l : List Char) (n : Nat) : l.get? n = (l.drop n).head? := by
  rw [← List.get?_zero, List.get?_drop, Nat.add_zero]

theorem tryBAux_brace : ∀ (fuel : Nat) (accB rest : List Char) (restPos : Nat)
    (nm : List Char) (bp : Nat),
    tryBAux fuel accB rest restPos = some (nm, bp) →
    ∃ k, bp = restPos + k ∧ rest.get? k = some '{' := by
  intro fuel
  induction fuel with
  | zero => intro accB rest restPos nm bp h; exact absurd h (by simp [tryBAux])
  | succ fuel ih =>
    intro accB rest restPos nm bp h
    rw [tryBAux.eq_def] at h
    dsimp only at h
    split at h
    · rename_i heq
      injection h with h2
      cases h2
      refine ⟨(rest.takeWhile isWS).length, rfl, ?_⟩
      rw [get?_eq_head?_drop]
      exact heq
    · split at h
      · rename_i c r
        split at h
        · obtain ⟨k, hbp, hget⟩ := ih _ _ _ _ _ h
          refine ⟨k + 1, by omega, ?_⟩
          rw [List.get?_cons_succ]
          exact hget
        · exact absurd h (by simp)
      · exact absurd h (by simp)

theorem tryA_brace : ∀ (n : Nat) (afterKw : List Char) (kwEnd : Nat)
    (nm : List Char) (bp : Nat),
    tryA n afterKw kwEnd = some (nm, bp) →
    ∃ m, bp = kwEnd + m ∧ afterKw.get? m = some '{' ∧ 2 ≤ m := by
  intro n
  induction n with
  | zero => intro afterKw kwEnd nm bp h; exact absurd h (by simp [tryA])
  | succ aLen ih =>
    intro afterKw kwEnd nm bp h
    rw [tryA] at h
    cases hu : afterKw.drop (aLen + 1) with
    | nil =>
      rw [hu] at h
      dsimp only at h
      exact ih afterKw kwEnd nm bp h
    | cons c r2 =>
      rw [hu] at h
      dsimp only at h
      by_cases hc : isNameChar c = true
      · rw [if_pos hc] at h
        cases hb : tryBAux (r2.length + 1) [c] r2 (kwEnd + aLen + 2) with
        | none =>
          rw [hb] at h
          exact ih afterKw kwEnd nm bp h
        | some x =>
          rw [hb] at h
          dsimp only at h
          injection h with h2
          obtain ⟨nm2, bp2⟩ := x
          cases h2
          obtain ⟨k, hbp, hget⟩ := tryBAux_brace _ _ _ _ _ _ hb
          refine ⟨aLen + 2 + k, by omega, ?_, by omega⟩
          have hr2 : afterKw.get? (aLen + 2 + k) = r2.get? k := by
            rw [show aLen + 2 + k = aLen + 1 + (1 + k) from by omega,
              ← List.get?_drop, hu, show 1 + k = k + 1 from by omega,
              List.get?_cons_succ]
          rw [hr2]
          exact hget
      · rw [if_neg hc] at h
        exact ih afterKw kwEnd nm bp h

theorem matchCore_brace {content : List Char} {q : Nat} {kw nm : List Char} {bp : Nat}
    (h : matchCore content q = some (kw, nm, bp)) :
    content.get? bp = some '{' ∧ q < bp := by
  rw [matchCore] at h
  dsimp only at h
  split at h
  · exact absurd h (by simp)
  · rename_i kw2 hkw
    split at h
    · exact absurd h (by simp)
    · split at h
      · exact absurd h (by simp)
      · rename_i heq
        simp only [Option.some.injEq, Prod.mk.injEq] at h
        obtain ⟨rfl, rfl, rfl⟩ := h
        obtain ⟨m, hbp, hget, hm⟩ := tryA_brace _ _ _ _ _ heq
        subst hbp
        constructor
        · rw [← hget, get?_eq_head?_drop, get?_eq_head?_drop]
          congr 1
          rw [List.drop_drop, List.drop_drop, List.drop_drop]
          congr 1
          omega
        · omega

theorem fdAux_sound (content : List Char) : ∀ (remaining : List Char) (b : Bool) (q : Nat)
    (r : List Char × List Char × Nat),
    fdAux content b q remaining = some r → ∃ q2, q ≤ q2 ∧ matchCore content q2 = some r := by
  intro remaining
  induction remaining with
  | nil =>
    intro b q r h
    rw [fdAux] at h
    split at h
    · rename_i heq
      cases b with
      | false => exact absurd heq (by simp)
      | true =>
        simp only [if_true] at heq
        injection h with h2
        subst h2
        exact ⟨q, le_rfl, heq⟩
    · exact absurd h (by simp)
  | cons c rest ih =>
    intro b q r h
    rw [fdAux] at h
    split at h
    · rename_i heq
      cases b with
      | false => exact absurd heq (by simp)
      | true =>
        simp only [if_true] at heq
        injection h with h2
        subst h2
        exact ⟨q, le_rfl, heq⟩
    · obtain ⟨q2, hq2, hmc⟩ := ih (c = '\n') (q + 1) r h
      exact ⟨q2, by omega, hmc⟩

theorem findDecl_brace {content : List Char} {pos : Nat} {kw nm : List Char} {bp : Nat}
    (h : findDecl content pos = some (kw, nm, bp)) :
    content.get? bp = some '{' ∧ pos < bp := by
  obtain ⟨q2, hq2, hmc⟩ := fdAux_sound content _ true pos _ h
  obtain ⟨hget, hlt⟩ := matchCore_brace hmc
  exact ⟨hget, by omega⟩

theorem exegAt_brace {s : List Char} {off : Nat} (h : exegAt s = some off) :
    s.get? off = some '{' ∧ 8 ≤ off := by
  rw [exegAt] at h
  split at h
  · dsimp only at h
    split at h
    · rename_i heq
      injection h with h2
      subst h2
      constructor
      · rw [get?_eq_head?_drop, ← List.drop_drop]
        exact heq
      · omega
    · exact absurd h (by simp)
  · exact absurd h (by simp)

theorem feAux_sound (content : List Char) : ∀ (remaining : List Char) (q e : Nat),
    remaining = content.drop q → feAux content q remaining = some e →
    content.get? e = some '{' ∧ q + 8 ≤ e := by
  intro remaining
  induction remaining with
  | nil =>
    intro q e hrem h
    rw [feAux] at h
    split at h
    · rename_i off heq
      obtain ⟨hget, hoff⟩ := exegAt_brace heq
      injection h with h2
      subst h2
      rw [hrem] at hget
      rw [get?_eq_head?_drop] at hget ⊢
      rw [List.drop_drop] at hget
      exact ⟨hget, by omega⟩
    · exact absurd h (by simp)
  | cons c rest ih =>
    intro q e hrem h
    rw [feAux] at h
    split at h
    · rename_i off heq
      obtain ⟨hget, hoff⟩ := exegAt_brace heq
      injection h with h2
      subst h2
      rw [hrem] at hget
      rw [get?_eq_head?_drop] at hget ⊢
      rw [List.drop_drop] at hget
      exact ⟨hget, by omega⟩
    · have hrest : rest = content.drop (q + 1) := by
        have h1 : (content.drop q).drop 1 = content.drop (q + 1) :=
          List.drop_drop 1 q content
        rw [← hrem] at h1
        simpa using h1
      obtain ⟨hget, hle⟩ := ih (q + 1) e hrest h
      exact ⟨hget, by omega⟩

theorem findExegesis_brace {content : List Char} {start e : Nat}
    (h : findExegesis content start = some e) :
    content.get? e = some '{' ∧ start + 8 ≤ e :=
  feAux_sound content _ start e rfl h

theorem matchCore_at_end {content : List Char} {pos : Nat}
    (h : content.length ≤ pos) : matchCore content pos = none := by
  rw [matchCore]
  rw [List.drop_eq_nil_of_le h]
  rfl

theorem findDecl_at_end {content : List Char} {pos : Nat}
    (h : content.length ≤ pos) : findDecl content pos = none := by
  rw [findDecl, List.drop_eq_nil_of_le h, fdAux]
  rw [show (if true then matchCore content pos else none) = matchCore content pos from rfl,
    matchCore_at_end h]

theorem scanLoop_total (content : List Char) : ∀ (fuel pos : Nat),
    content.length ≤ pos + fuel →
    ∃ ds, scanLoop content (fuel + 1) pos = some ds := by
  intro fuel
  induction fuel with
  | zero =>
    intro pos hpos
    rw [scanLoop, findDecl_at_end (by omega)]
    exact ⟨[], rfl⟩
  | succ fuel ih =>
    intro pos hpos
    rw [scanLoop]
    cases hfd : findDecl content pos with
    | none => exact ⟨[], rfl⟩
    | some r =>
      obtain ⟨kind, rawName, bracePos⟩ := r
      obtain ⟨hbrace, hlt⟩ := findDecl_brace hfd
      obtain ⟨body0, bodyEnd, hex, hle, hend⟩ := extract_at_brace hbrace
      dsimp only
      rw [hex]
      dsimp only
      cases hfe : findExegesis content (bodyEnd + 1) with
      | none =>
        dsimp only
        obtain ⟨ds, hds⟩ := ih (bodyEnd + 1) (by omega)
        rw [hds]
        exact ⟨_, rfl⟩
      | some egPos =>
        dsimp only
        obtain ⟨hbrace2, hge⟩ := findExegesis_brace hfe
        obtain ⟨eg, egEnd, hex2, hle2, hend2⟩ := extract_at_brace hbrace2
        rw [hex2]
        dsimp only
        obtain ⟨ds, hds⟩ := ih (egEnd + 1) (by omega)
        rw [hds]
        exact ⟨_, rfl⟩

/-- Claim C10: every offset the scanner hands to the brace matcher (the body
brace after a matched declaration header, and the exegesis brace after a
matched `exegesis {` token) holds the character `{`, so the brace matcher's
malformed-input (`ValueError`) branch is unreachable during scanning and the
scan of any input text completes normally. -/
theorem malformed_input_unreachable :
    (∀ (content : List Char) (pos : Nat) (kw nm : List Char) (bp : Nat),
      findDecl content pos = some (kw, nm, bp) → content.get? bp = some '{') ∧
    (∀ (content : List Char) (start e : Nat),
      findExegesis content start = some e → content.get? e = some '{') ∧
    (∀ content : List Char, ∃ ds, split_dol_file content = some ds) := by
  refine ⟨fun content pos kw nm bp h => (findDecl_brace h).1,
    fun content start e h => (findExegesis_brace h).1,
    fun content => ?_⟩
  rw [split_dol_file]
  exact scanLoop_total (stripComments content) (stripComments content).length 0
    (by omega)

/-- Witness for C10 at concrete scanner matches. -/
theorem malformed_input_unreachable_witness :
    "gene A {a}".data.get? 7 = some '{' ∧
    " x exegesis {e}".data.get? 12 = some '{' ∧
    ∃ ds, split_dol_file "gene A {a} exegesis {e}".data = some ds :=
  ⟨malformed_input_unreachable.1 "gene A {a}".data 0 "gene".data "A".data 7 (by decide),
   malformed_input_unreachable.2.1 " x exegesis {e}".data 0 12 (by decide),
   malformed_input_unreachable.2.2 "gene A {a} exegesis {e}".data⟩
